import Mathlib

/-!
Verification development for the MaxQuant post-processing pipeline
(`MaxQuant_Postprocessing_Functions.py`).

The pandas dataframe cells are IEEE doubles; we model a cell value as `FV`:
either NaN (the missing-value sentinel), +inf, -inf, or a finite value
(modelled as an exact rational).  Arithmetic on `FV` follows the IEEE rules
the Python code relies on (NaN propagation, division by zero producing
infinities, `0/0 = NaN`, comparisons with NaN being false).
-/

/-- Model of a pandas/numpy float cell: NaN (missing sentinel), plus or
minus infinity, or a finite value (exact rational). -/
inductive FV where
  | nan : FV
  | pinf : FV
  | ninf : FV
  | num : ℚ → FV
deriving DecidableEq

namespace FV

/-- Whether the cell is the missing sentinel (NaN). -/
def isNan : FV → Bool
  | nan => true
  | _ => false

/-- Extract the finite value, if any. -/
def toQ : FV → Option ℚ
  | num q => some q
  | _ => none

/-- IEEE comparison `0 < v` as used by `df[cols] > 0` (false on NaN). -/
def gtZero : FV → Bool
  | pinf => true
  | num q => decide (0 < q)
  | _ => false

/-- IEEE addition (used for the even-length median average). -/
def add : FV → FV → FV
  | nan, _ => nan
  | _, nan => nan
  | pinf, ninf => nan
  | ninf, pinf => nan
  | pinf, _ => pinf
  | _, pinf => pinf
  | ninf, _ => ninf
  | _, ninf => ninf
  | num a, num b => num (a + b)

/-- IEEE multiplication. -/
def mul : FV → FV → FV
  | nan, _ => nan
  | _, nan => nan
  | pinf, pinf => pinf
  | pinf, ninf => ninf
  | ninf, pinf => ninf
  | ninf, ninf => pinf
  | pinf, num b => if 0 < b then pinf else if b < 0 then ninf else nan
  | num a, pinf => if 0 < a then pinf else if a < 0 then ninf else nan
  | ninf, num b => if 0 < b then ninf else if b < 0 then pinf else nan
  | num a, ninf => if 0 < a then ninf else if a < 0 then pinf else nan
  | num a, num b => num (a * b)

/-- IEEE division (finite/0 gives a signed infinity, 0/0 gives NaN). -/
def div : FV → FV → FV
  | nan, _ => nan
  | _, nan => nan
  | pinf, pinf => nan
  | pinf, ninf => nan
  | ninf, pinf => nan
  | ninf, ninf => nan
  | pinf, num b => if 0 ≤ b then pinf else ninf
  | ninf, num b => if 0 ≤ b then ninf else pinf
  | num _, pinf => num 0
  | num _, ninf => num 0
  | num a, num b =>
    if b = 0 then (if a = 0 then nan else if 0 < a then pinf else ninf)
    else num (a / b)

/-- Total order used for sorting non-NaN cells: `ninf < num _ < pinf`.
NaN is placed at the bottom so the relation is a linear order on all of
`FV`; NaNs are always filtered out before sorting, so its position is
irrelevant to the model. -/
def leB : FV → FV → Bool
  | nan, _ => true
  | _, nan => false
  | ninf, _ => true
  | _, ninf => false
  | _, pinf => true
  | pinf, _ => false
  | num a, num b => decide (a ≤ b)

/-- Propositional form of `leB`, for the sorting lemmas. -/
def leR (a b : FV) : Prop := leB a b = true

instance : DecidableRel leR := fun a b => by unfold leR; infer_instance

instance : IsTotal FV leR := by
  constructor
  intro a b
  cases a <;> cases b <;> simp [leR, leB]
  exact le_total _ _

instance : IsTrans FV leR := by
  constructor
  intro a b c hab hbc
  cases a <;> cases b <;> cases c <;> simp_all [leR, leB]
  exact le_trans hab hbc

instance : IsAntisymm FV leR := by
  constructor
  intro a b hab hba
  cases a <;> cases b <;> simp_all [leR, leB]
  exact le_antisymm hab hba

/-- Binary minimum with respect to `leB` (used for pandas `min`). -/
def min2 (a b : FV) : FV := if leB a b then a else b

end FV

/-! Sorting and medians.

`sortQ`/`medianQ` model the median of a list of finite doubles the way
numpy computes it: sort ascending, take the middle element for odd length,
the average of the two middle elements for even length, `None` for an
empty list.  `medianFV` is the pandas `Series.median()` (skipna) on cells
that may also be NaN or infinite. -/

/-- Ascending insertion sort of rationals. -/
def sortQ (xs : List ℚ) : List ℚ := List.insertionSort (fun a b : ℚ => a ≤ b) xs

/-- Middle element (or average of the two middles) of a sorted list. -/
def medOfSorted (s : List ℚ) : ℚ :=
  if s.length % 2 = 1 then s.getD (s.length / 2) 0
  else (s.getD (s.length / 2 - 1) 0 + s.getD (s.length / 2) 0) / 2

/-- Median of a list of finite values; `none` for the empty list. -/
def medianQ (xs : List ℚ) : Option ℚ :=
  if xs.isEmpty then none else some (medOfSorted (sortQ xs))

/-- Ascending insertion sort of cells under `FV.leR`. -/
def sortFV (xs : List FV) : List FV := List.insertionSort FV.leR xs

/-- Pandas `Series.median()`: drop NaNs, sort, take the middle (average of
the two middle cells for even length); NaN when no value remains. -/
def medianFV (xs : List FV) : FV :=
  let ys := sortFV (xs.filter (fun v => !v.isNan))
  if ys.isEmpty then FV.nan
  else if ys.length % 2 = 1 then ys.getD (ys.length / 2) FV.nan
  else FV.div (FV.add (ys.getD (ys.length / 2 - 1) FV.nan) (ys.getD (ys.length / 2) FV.nan)) (FV.num 2)

/-- Pandas `Series.min()` (skipna): minimum of the non-NaN entries, NaN when
none remain. -/
def seriesMin (xs : List FV) : FV :=
  match xs.filter (fun v => !v.isNan) with
  | [] => FV.nan
  | y :: ys => ys.foldl FV.min2 y



/-! The numeric dataframe model.

After `slice_by_column` the pipeline's dataframes consist of the identity
column `'Majority protein IDs'` followed by the numeric sample columns.
`NDF` models the numeric region: `cols` are the sample-column names and
each entry of `rows` is one protein's values, aligned with `cols`.  The
identity column (a string column, never touched by the numeric
operations, which all act on `df.iloc[:, 1:]`) is kept outside the model;
row filtering acts on whole rows so nothing is lost by this split.  The
model assumes sample-column names are distinct and that no group name
occurs in the identity column's name (true of the `iBAQ <n>_<Organ>`
naming scheme the pipeline is written for). -/

structure NDF where
  cols : List String
  rows : List (List FV)
deriving DecidableEq

/-- Values of column `j` (ragged-safe: rows lacking position `j` contribute
nothing). -/
def colVals (df : NDF) (j : ℕ) : List FV := df.rows.filterMap (fun r => r.get? j)

/-- Structural map-with-index over a row, used to apply a per-column
transformation. -/
def mapIdxFrom (f : ℕ → FV → FV) : ℕ → List FV → List FV
  | _, [] => []
  | k, v :: vs => f k v :: mapIdxFrom f (k + 1) vs

/-! Normalizer: `log2_normalize` and `median_normalize`
(`MaxQuant_Postprocessing_Functions.py` lines 141-144 and 209-215). -/

/-- Model of `numpy.log2` on a float cell.  `lg` stands in for the exact
real `log2` on positive rationals (its values do not matter to any claim);
`log2 0 = -inf`, `log2` of a negative value is NaN, `log2 (+inf) = +inf`,
`log2 (-inf) = NaN`, `log2 NaN = NaN`. -/
def np_log2 (lg : ℚ → ℚ) : FV → FV
  | FV.nan => FV.nan
  | FV.pinf => FV.pinf
  | FV.ninf => FV.nan
  | FV.num q => if 0 < q then FV.num (lg q) else if q = 0 then FV.ninf else FV.nan

/-- Model of `df.replace([np.inf, -np.inf], np.nan)` on one cell. -/
def replaceInfNan (v : FV) : FV :=
  if v = FV.pinf ∨ v = FV.ninf then FV.nan else v

/-- Embedding of `log2_normalize(df)`: apply `np.log2` to every cell of the
numeric region (`df.iloc[:, 1:]`), then replace infinities with NaN. -/
def log2_normalize (lg : ℚ → ℚ) (df : NDF) : NDF :=
  ⟨df.cols, df.rows.map (fun r => r.map (fun v => replaceInfNan (np_log2 lg v)))⟩

/-- Per-column medians, `quants.median(axis = 0)` (skipna). -/
def colMedian (df : NDF) (j : ℕ) : FV := medianFV (colVals df j)

/-- The series of per-column medians, `quants.median()`. -/
def colMedians (df : NDF) : List FV := (List.range df.cols.length).map (colMedian df)

/-- Median of the per-column medians, `quants.median().median()`. -/
def medianOfMedians (df : NDF) : FV := medianFV (colMedians df)

/-- Embedding of `median_normalize(df)`: each cell of column `j` becomes
`v / median(j) * median_of_medians` (IEEE arithmetic on cells). -/
def median_normalize (df : NDF) : NDF :=
  let M := medianOfMedians df
  ⟨df.cols, df.rows.map (mapIdxFrom (fun j v => FV.mul (FV.div v (colMedian df j)) M) 0)⟩

/-! Imputer: `impute_missing` (lines 231-235). -/

/-- Per-column minimum, one entry of `df.iloc[:, 1:].min()` (skipna). -/
def colMin (df : NDF) (j : ℕ) : FV := seriesMin (colVals df j)

/-- The code's matrix-wide minimum `df.iloc[:, 1:].min().min()`: minimum of
the per-column minima, skipping NaN entries (all-NaN columns). -/
def codeMin (df : NDF) : FV := seriesMin ((List.range df.cols.length).map (colMin df))

/-- Embedding of `impute_missing(df)`: `df.fillna(df_min / 2)` where
`df_min` is the matrix-wide minimum.  When every cell is NaN the fill value
is itself NaN and the matrix is unchanged, matching pandas. -/
def impute_missing (df : NDF) : NDF :=
  let impute_val := FV.div (codeMin df) (FV.num 2)
  ⟨df.cols, df.rows.map (fun r => r.map (fun v => if v.isNan then impute_val else v))⟩

/-- Spec-side formulation for C4: the minimum non-missing value over the
whole sample-column region, taken in one pass over all cells. -/
def regionMin (df : NDF) : FV := seriesMin df.rows.flatten

/-! Detection filter: `filter_low_observed` (lines 88-100). -/

/-- Whether the first character list starts the second. -/
def startsWithB : List Char → List Char → Bool
  | [], _ => true
  | _ :: _, [] => false
  | a :: as, b :: bs => a == b && startsWithB as bs

/-- Whether the first character list occurs inside the second. -/
def occursInB (n : List Char) : List Char → Bool
  | [] => n.isEmpty
  | b :: bs => startsWithB n (b :: bs) || occursInB n bs

/-- Substring test on strings. -/
def strContains (hay ndl : String) : Bool := occursInB ndl.toList hay.toList

/-- Columns assigned to a group: the code filters `df.columns` with the
regex `'.*' + group` via `re.search`, i.e. keeps the columns whose name
contains the group name (group names contain no regex metacharacters). -/
def groupCols (cols : List String) (g : String) : List String :=
  cols.filter (fun c => strContains c g)

/-- Value of the named column in a row (NaN when the column is absent). -/
def cellAt (cols : List String) (r : List FV) (c : String) : FV :=
  match cols.findIdx? (fun c0 => c0 == c) with
  | some i => r.getD i FV.nan
  | none => FV.nan

/-- Per-row count of a group's columns holding a value strictly greater
than zero: `(df[cols] > 0).sum(1)` for one row. -/
def nonzeroCount (cols : List String) (r : List FV) (g : String) : ℕ :=
  ((groupCols cols g).map (cellAt cols r)).countP FV.gtZero

/-- Embedding of `filter_low_observed(df, groups, ...)`.  The loop body
computes each group's column list, count series and `threshold = len(cols)/2`,
but `threshold` is a plain local variable: after the loop it holds the LAST
group's threshold, and the retention conditions `organ_counts[g] >= threshold`
compare every group's counts against that single leaked value.  With an
empty `groups` list the name `threshold` is never bound and Python raises
`NameError`, modelled as `none`. -/
def filter_low_observed (df : NDF) (groups : List String) : Option NDF :=
  match groups.getLast? with
  | none => none
  | some glast =>
    let threshold : ℚ := ((groupCols df.cols glast).length : ℚ) / 2
    some ⟨df.cols, df.rows.filter (fun r =>
      groups.any (fun g => decide (threshold ≤ (nonzeroCount df.cols r g : ℚ))))⟩

/-- Spec-side formulation for C1 (the claim's words): a row is retained iff
for at least one group its non-zero count reaches half of THAT group's own
column count. -/
def detectionPassSpec (cols : List String) (groups : List String) (r : List FV) : Bool :=
  groups.any (fun g =>
    decide ((((groupCols cols g).length : ℚ) / 2) ≤ (nonzeroCount cols r g : ℚ)))

/-! Column slicing: `slice_by_column` (lines 63-70).  The function keeps the
columns whose name matches `col_name + '.*'` or contains the identity
column's name (`df.filter(regex = ...)` uses `re.search`, so a column
matches iff `col_name`, resp. the identity name, occurs in it).  Only the
selected column names matter to the claims; values ride along. -/
def slice_by_column (cols : List String) (feature colName : String) : List String :=
  let idName := if feature = "protein" then "Majority protein IDs" else "Sequence"
  cols.filter (fun c => strContains c colName || strContains c idName)

/-! Quality filter: `clean_weakly_identified` (lines 35-37) and
`remove_dup_proteinIDs` (lines 47-50).  A raw row is modelled by its three
quality-flag cells and its `'Majority protein IDs'` cell; `none` models a
missing (NaN) cell.  The remaining columns play no part in the retention
decision and ride along. -/

structure RawRow where
  onlySite : Option String
  rev : Option String
  contaminant : Option String
  majorityIDs : Option String
deriving DecidableEq

/-- Embedding of `clean_weakly_identified(df)`: keep the rows where none of
the three flag columns equals `'+'` (a missing flag cell compares unequal,
as in pandas). -/
def clean_weakly_identified (df : List RawRow) : List RawRow :=
  df.filter (fun r =>
    r.onlySite != some "+" && r.rev != some "+" && r.contaminant != some "+")

/-- Embedding of `remove_dup_proteinIDs(df)`: keep the rows where
`df['Majority protein IDs'].str.contains(';') == False`.  For a missing
identity cell `str.contains` yields NaN and `NaN == False` is false, so the
row is dropped. -/
def remove_dup_proteinIDs (df : List RawRow) : List RawRow :=
  df.filter (fun r => (r.majorityIDs.map (fun s => s.contains ';')) == some false)

/-- Claim C5's stated retention predicate: flags clear and the identity
field does not contain `';'` (a missing identity field is retained, since
the claim only excludes rows whose field CONTAINS the separator). -/
def qualityClaimRetained (r : RawRow) : Bool :=
  r.onlySite != some "+" && r.rev != some "+" && r.contaminant != some "+" &&
    (match r.majorityIDs with
     | some s => !(s.contains ';')
     | none => true)

/-- Amended retention predicate for C5: additionally requires the identity
field to be present. -/
def qualityRetained (r : RawRow) : Bool :=
  r.onlySite != some "+" && r.rev != some "+" && r.contaminant != some "+" &&
    (match r.majorityIDs with
     | some s => !(s.contains ';')
     | none => false)

/-! Significance filter: `filter_proteins_by_anova` (lines 432-451), with
`scipy.stats.f_oneway` modelled over exact rationals.  The p-value of a
non-degenerate F-test is a transcendental function of the F statistic; the
model keeps the F statistic and the degrees of freedom symbolically
(`PVal.cont`) and the retention test is parameterised by an arbitrary
decision `contDec dfbn dfwn F alpha` for that continuous case, so every
theorem below holds for whatever the true F distribution yields. -/

/-- Result of `f_oneway`: NaN (undefined F statistic, `p = NaN`), an
infinite F statistic (`p = 0` exactly), or a finite positive case with the
F statistic and degrees of freedom. -/
inductive PVal where
  | nan : PVal
  | zero : PVal
  | cont : ℕ → ℕ → ℚ → PVal
deriving DecidableEq

/-- The retention comparison `p <= max_pval`.  A NaN p-value compares
false; `p = 0` passes any non-negative threshold; the continuous case is
decided by `contDec`. -/
def PVal.le (contDec : ℕ → ℕ → ℚ → ℚ → Bool) : PVal → ℚ → Bool
  | PVal.nan, _ => false
  | PVal.zero, a => decide (0 ≤ a)
  | PVal.cont dfbn dfwn F, a => contDec dfbn dfwn F a

/-- Square of a rational. -/
def sqQ (x : ℚ) : ℚ := x * x

/-- Grand mean of all the data, scipy's `offset = alldata.mean()`. -/
def offsetQ (gs : List (List ℚ)) : ℚ := gs.flatten.sum / (gs.flatten.length : ℚ)

/-- Total sum of squares of the centred data,
`_sum_of_squares(alldata) - square_of_sums(alldata) / bign`. -/
def sstotQ (gs : List (List ℚ)) : ℚ :=
  ((gs.flatten.map (fun x => x - offsetQ gs)).map sqQ).sum
    - sqQ (gs.flatten.map (fun x => x - offsetQ gs)).sum / (gs.flatten.length : ℚ)

/-- Between-group sum of squares,
`sum(square_of_sums(a - offset)/len(a)) - square_of_sums(alldata)/bign`. -/
def ssbnQ (gs : List (List ℚ)) : ℚ :=
  (gs.map (fun g => sqQ ((g.map (fun x => x - offsetQ gs)).sum) / (g.length : ℚ))).sum
    - sqQ (gs.flatten.map (fun x => x - offsetQ gs)).sum / (gs.flatten.length : ℚ)

/-- Within-group sum of squares, `sswn = sstot - ssbn`. -/
def sswnQ (gs : List (List ℚ)) : ℚ := sstotQ gs - ssbnQ gs

/-- Model of `scipy.stats.f_oneway` on groups of finite values, following
scipy's computation: centre all data at the grand mean, form the total and
between-group sums of squares, and build `F = (ssbn/dfbn) / (sswn/dfwn)`.
An empty group makes every statistic NaN (0/0 in scipy, an explicit NaN
return in later versions); `dfwn = 0` gives `sswn/0 = 0/0 = NaN`; a zero
within-group sum of squares gives `F = NaN` when `ssbn = 0` and `F = +inf`
(hence `p = 0` exactly) otherwise.  Fewer than two groups never occurs in
the repository (the call site always passes five slices). -/
def f_onewayQ (gs : List (List ℚ)) : PVal :=
  if gs.any List.isEmpty then PVal.nan
  else if gs.length < 2 then PVal.nan
  else if gs.flatten.length - gs.length = 0 then PVal.nan
  else if sswnQ gs = 0 then (if ssbnQ gs = 0 then PVal.nan else PVal.zero)
  else PVal.cont (gs.length - 1) (gs.flatten.length - gs.length)
    ((ssbnQ gs / ((gs.length - 1 : ℕ) : ℚ)) / (sswnQ gs / ((gs.flatten.length - gs.length : ℕ) : ℚ)))

/-- `f_oneway` on cell blocks: any NaN or infinite cell propagates through
scipy's sums of squares to a NaN p-value; otherwise the exact-rational
computation applies. -/
def f_oneway (blocks : List (List FV)) : PVal :=
  if blocks.all (fun b => b.all (fun v => (FV.toQ v).isSome)) then
    f_onewayQ (blocks.map (fun b => b.filterMap FV.toQ))
  else PVal.nan

/-- The five hardcoded column blocks `df.iloc[i, :6]`, `df.iloc[i, 6:12]`,
..., `df.iloc[i, 24:30]` (positional slices are length-clamped, as in
pandas). -/
def hardBlocks (vs : List FV) : List (List FV) :=
  [vs.take 6, (vs.drop 6).take 6, (vs.drop 12).take 6, (vs.drop 18).take 6, (vs.drop 24).take 6]

/-- Whether one row passes the ANOVA test the code performs: `p <= max_pval`
for `f_oneway` over the five hardcoded blocks. -/
def anovaPass (contDec : ℕ → ℕ → ℚ → ℚ → Bool) (pval : ℚ) (r : String × List FV) : Bool :=
  PVal.le contDec (f_oneway (hardBlocks r.2)) pval

/-- Embedding of `filter_proteins_by_anova(df, pval)`.  The dataframe is
indexed by protein id (set by `do_pca` earlier in the pipeline); the loop
collects the ids of the rows whose p-value passes, and the result keeps the
rows whose id is in that list (`df.index.isin(pass_anova)`). -/
def filter_proteins_by_anova (contDec : ℕ → ℕ → ℚ → ℚ → Bool)
    (df : List (String × List FV)) (pval : ℚ) : List (String × List FV) :=
  let pass := (df.filter (anovaPass contDec pval)).map Prod.fst
  df.filter (fun r => decide (r.1 ∈ pass))

/-- Row blocks cut at the actual group boundaries of a group mapping
(successive group sizes), as claim C2 describes. -/
def specBlocks : List ℕ → List FV → List (List FV)
  | [], _ => []
  | n :: ns, vs => vs.take n :: specBlocks ns (vs.drop n)

/-- Spec-side formulation for C2 (the claim's words): retain a row exactly
when the one-way ANOVA over the blocks given by the ACTUAL group mapping
has `p <= pval`. -/
def anovaFilterSpec (contDec : ℕ → ℕ → ℚ → ℚ → Bool) (sizes : List ℕ)
    (df : List (String × List FV)) (pval : ℚ) : List (String × List FV) :=
  df.filter (fun r => PVal.le contDec (f_oneway (specBlocks sizes r.2)) pval)

/-! Call-semantics wrappers for C9.  Each Python call is modelled as
`argument state after the call × returned value`.  `impute_missing` calls
`df.fillna(...)` WITHOUT `inplace` and rebinds only its local name, so the
caller's object is untouched and the new matrix is returned;
`log2_normalize` assigns into `df.iloc[:, 1:]` and calls
`df.replace(..., inplace=True)`, and `median_normalize` assigns into
`df.iloc[:, 1:]`, so both mutate the caller's object and return `None`. -/

/-- Calling `impute_missing(df)`: argument unchanged, new matrix returned. -/
def imputeCall (df : NDF) : NDF × Option NDF := (df, some (impute_missing df))

/-- Calling `log2_normalize(df)`: argument mutated, `None` returned. -/
def log2Call (lg : ℚ → ℚ) (df : NDF) : NDF × Option NDF := (log2_normalize lg df, none)

/-- Calling `median_normalize(df)`: argument mutated, `None` returned. -/
def medianCall (df : NDF) : NDF × Option NDF := (median_normalize df, none)

/-- A raw row whose identity field is missing and whose flags are clear:
claim C5 says it is retained, the code drops it. -/
def rowNoId : RawRow := ⟨none, none, none, none⟩

/-- Sample columns for the C1 failing input: the `Liver` group has two
columns, the `Brain` group four. -/
def colsC1 : List String :=
  ["iBAQ 01_Liver", "iBAQ 02_Liver", "iBAQ 03_Brain", "iBAQ 04_Brain",
   "iBAQ 05_Brain", "iBAQ 06_Brain"]

/-- The C1 failing row: detected in one of the two `Liver` columns (its
count `1` equals half the `Liver` group's column count) and in no `Brain`
column. -/
def rowC1 : List FV :=
  [FV.num 1, FV.num 0, FV.num 0, FV.num 0, FV.num 0, FV.num 0]

/-- Conservative instantiation of the continuous-case p-value decision
(used only by concrete witnesses whose inputs never reach the continuous
branch of `f_oneway`): the continuous case never passes. -/
def contDec0 : ℕ → ℕ → ℚ → ℚ → Bool := fun _ _ _ _ => false

/-- C2 counterexample input: one row of six values under a mapping of two
groups of three columns each. -/
def dfC2 : List (String × List FV) :=
  [("P1", [FV.num 1, FV.num 1, FV.num 1, FV.num 2, FV.num 2, FV.num 2])]

/-- C7 counterexample row: thirty values, constant within each of the five
hardcoded six-column groups but different across groups (zero within-group
variance, infinite F statistic, p-value exactly 0). -/
def rowC7 : List FV :=
  List.replicate 6 (FV.num 1) ++ List.replicate 6 (FV.num 2) ++ List.replicate 6 (FV.num 3) ++
    List.replicate 6 (FV.num 4) ++ List.replicate 6 (FV.num 5)

/-- C7 counterexample input. -/
def dfC7 : List (String × List FV) := [("P1", rowC7)]

/-- Sum of a list of rationals whose members are all equal to `c`. -/
theorem sum_of_const {l : List ℚ} {c : ℚ} (h : ∀ x ∈ l, x = c) :
    l.sum = (l.length : ℚ) * c := by
  induction l with
  | nil => simp
  | cons a t ih =>
    have ha : a = c := h a (by simp)
    have ht : ∀ x ∈ t, x = c := fun x hx => h x (by simp [hx])
    rw [List.sum_cons, ih ht, ha, List.length_cons]
    push_cast
    ring

/-- When every value of every group is the same constant, all sums of
squares vanish and `f_oneway` yields a NaN F statistic and p-value. -/
theorem f_onewayQ_const {gs : List (List ℚ)} {c : ℚ}
    (h : ∀ g ∈ gs, ∀ x ∈ g, x = c) : f_onewayQ gs = PVal.nan := by
  unfold f_onewayQ
  by_cases h1 : gs.any List.isEmpty
  · simp [h1]
  · by_cases h2 : gs.length < 2
    · simp [h1, h2]
    · have hall : ∀ x ∈ gs.flatten, x = c := by
        intro x hx
        obtain ⟨g, hg, hxg⟩ := List.mem_flatten.mp hx
        exact h g hg x hxg
      have hNpos : 0 < gs.flatten.length := by
        rcases gs with _ | ⟨g, t⟩
        · simp at h2
        · rcases g with _ | ⟨a, g'⟩
          · simp [List.any_cons, List.isEmpty] at h1
          · simp [List.flatten_cons]
      have hNne : ((gs.flatten.length : ℚ)) ≠ 0 := by
        exact_mod_cast Nat.pos_iff_ne_zero.mp hNpos
      have hoff : offsetQ gs = c := by
        unfold offsetQ
        rw [sum_of_const hall, mul_comm, mul_div_assoc, div_self hNne, mul_one]
      have hshift : ∀ y ∈ gs.flatten.map (fun x => x - offsetQ gs), y = 0 := by
        intro y hy
        obtain ⟨x, hx, hxy⟩ := List.mem_map.mp hy
        rw [← hxy, hall x hx, hoff]
        ring
      have hs1 : (gs.flatten.map (fun x => x - offsetQ gs)).sum = 0 := by
        rw [sum_of_const hshift]; ring
      have hs2 : ((gs.flatten.map (fun x => x - offsetQ gs)).map sqQ).sum = 0 := by
        rw [sum_of_const (c := 0) ?_]
        · ring
        · intro y hy
          obtain ⟨x, hx, hxy⟩ := List.mem_map.mp hy
          rw [← hxy, hshift x hx]
          simp [sqQ]
      have hsstot : sstotQ gs = 0 := by
        unfold sstotQ
        rw [hs1, hs2]
        simp [sqQ]
      have hssbn : ssbnQ gs = 0 := by
        unfold ssbnQ
        rw [hs1, sum_of_const (c := 0) ?_]
        · simp [sqQ]
        · intro t ht
          obtain ⟨g, hg, hgt⟩ := List.mem_map.mp ht
          have : (g.map (fun x => x - offsetQ gs)).sum = 0 := by
            rw [sum_of_const (c := 0) ?_]
            · ring
            · intro y hy
              obtain ⟨x, hx, hxy⟩ := List.mem_map.mp hy
              rw [← hxy, h g hg x hx, hoff]
              ring
          rw [← hgt, this]
          simp [sqQ]
      have hsswn : sswnQ gs = 0 := by
        unfold sswnQ
        rw [hsstot, hssbn]
        ring
      by_cases h3 : gs.flatten.length - gs.length = 0
      · rw [if_neg h1, if_neg h2, if_pos h3]
      · rw [if_neg h1, if_neg h2, if_neg h3, if_pos hsswn, if_pos hssbn]

/-- `f_oneway` on blocks of cells all holding the same finite constant is
NaN. -/
theorem f_oneway_const {blocks : List (List FV)} {c : ℚ}
    (h : ∀ b ∈ blocks, ∀ v ∈ b, v = FV.num c) : f_oneway blocks = PVal.nan := by
  unfold f_oneway
  have hall : blocks.all (fun b => b.all (fun v => (FV.toQ v).isSome)) = true := by
    simp only [List.all_eq_true]
    intro b hb v hv
    rw [h b hb v hv]
    rfl
  rw [if_pos hall]
  apply f_onewayQ_const (c := c)
  intro g hg x hx
  obtain ⟨b, hb, hbe⟩ := List.mem_map.mp hg
  subst hbe
  obtain ⟨v, hv, htq⟩ := List.mem_filterMap.mp hx
  rw [h b hb v hv] at htq
  simpa [FV.toQ] using htq.symm

/-- Every cell of every hardcoded block comes from the row itself. -/
theorem hardBlocks_const {vals : List FV} {c : ℚ} (h : ∀ v ∈ vals, v = FV.num c) :
    ∀ b ∈ hardBlocks vals, ∀ v ∈ b, v = FV.num c := by
  intro b hb v hv
  apply h
  unfold hardBlocks at hb
  simp only [List.mem_cons, List.not_mem_nil, or_false] at hb
  rcases hb with rfl | rfl | rfl | rfl | rfl
  · exact List.mem_of_mem_take hv
  · exact List.mem_of_mem_drop (List.mem_of_mem_take hv)
  · exact List.mem_of_mem_drop (List.mem_of_mem_take hv)
  · exact List.mem_of_mem_drop (List.mem_of_mem_take hv)
  · exact List.mem_of_mem_drop (List.mem_of_mem_take hv)

/-! Order facts for `FV.min2` and the `seriesMin` characterization, used to
relate the code's min-of-column-minima to the claim's region-wide minimum. -/

theorem FV.leB_refl (a : FV) : FV.leB a a = true := by
  cases a <;> simp [FV.leB]

theorem FV.leB_total (a b : FV) : FV.leB a b = true ∨ FV.leB b a = true :=
  IsTotal.total (r := FV.leR) a b

theorem FV.leB_trans {a b c : FV} (h1 : FV.leB a b = true) (h2 : FV.leB b c = true) :
    FV.leB a c = true :=
  IsTrans.trans (r := FV.leR) a b c h1 h2

theorem FV.leB_antisymm {a b : FV} (h1 : FV.leB a b = true) (h2 : FV.leB b a = true) :
    a = b :=
  IsAntisymm.antisymm (r := FV.leR) a b h1 h2

theorem FV.min2_eq_or (a b : FV) : FV.min2 a b = a ∨ FV.min2 a b = b := by
  unfold FV.min2
  split <;> simp

theorem FV.leB_min2_left (a b : FV) : FV.leB (FV.min2 a b) a = true := by
  unfold FV.min2
  split
  · exact FV.leB_refl a
  · rcases FV.leB_total a b with h | h
    · simp_all
    · exact h

theorem FV.leB_min2_right (a b : FV) : FV.leB (FV.min2 a b) b = true := by
  unfold FV.min2
  split
  · assumption
  · exact FV.leB_refl b

theorem foldl_min2_mem (ys : List FV) (y : FV) :
    ys.foldl FV.min2 y = y ∨ ys.foldl FV.min2 y ∈ ys := by
  induction ys generalizing y with
  | nil => simp
  | cons a t ih =>
    simp only [List.foldl_cons]
    rcases ih (FV.min2 y a) with h | h
    · rcases FV.min2_eq_or y a with h2 | h2
      · left
        rw [h, h2]
      · right
        rw [h, h2]
        simp
    · right
      simp [h]

theorem foldl_min2_le_init (ys : List FV) (y : FV) :
    FV.leB (ys.foldl FV.min2 y) y = true := by
  induction ys generalizing y with
  | nil => simp [FV.leB_refl]
  | cons a t ih =>
    simp only [List.foldl_cons]
    exact FV.leB_trans (ih (FV.min2 y a)) (FV.leB_min2_left y a)

theorem foldl_min2_le_mem (ys : List FV) (y : FV) :
    ∀ x ∈ ys, FV.leB (ys.foldl FV.min2 y) x = true := by
  induction ys generalizing y with
  | nil => simp
  | cons a t ih =>
    intro x hx
    simp only [List.foldl_cons]
    rcases List.mem_cons.mp hx with rfl | hx
    · exact FV.leB_trans (foldl_min2_le_init t (FV.min2 y x)) (FV.leB_min2_right y x)
    · exact ih (FV.min2 y a) x hx

/-- `seriesMin` is NaN exactly when no non-NaN entry exists; otherwise it is
one of the non-NaN entries and a lower bound of all of them. -/
theorem seriesMin_spec (xs : List FV) :
    (xs.filter (fun v => !v.isNan) = [] ∧ seriesMin xs = FV.nan) ∨
    (seriesMin xs ∈ xs.filter (fun v => !v.isNan) ∧
      ∀ x ∈ xs.filter (fun v => !v.isNan), FV.leB (seriesMin xs) x = true) := by
  unfold seriesMin
  cases h : xs.filter (fun v => !v.isNan) with
  | nil => exact Or.inl ⟨rfl, rfl⟩
  | cons y ys =>
    right
    constructor
    · show List.foldl FV.min2 y ys ∈ y :: ys
      rcases foldl_min2_mem ys y with h2 | h2
      · rw [h2]
        simp
      · simp [h2]
    · intro x hx
      show FV.leB (List.foldl FV.min2 y ys) x = true
      rcases List.mem_cons.mp hx with rfl | hx
      · exact foldl_min2_le_init ys x
      · exact foldl_min2_le_mem ys y x hx

/-- A non-NaN `seriesMin` member is itself non-NaN. -/
theorem seriesMin_not_nan {xs : List FV} (h : xs.filter (fun v => !v.isNan) ≠ []) :
    (seriesMin xs).isNan = false := by
  rcases seriesMin_spec xs with ⟨h1, _⟩ | ⟨h1, _⟩
  · exact absurd h1 h
  · have := List.mem_filter.mp h1
    simpa using this.2

/-- `seriesMin` of a list with no non-NaN entry is NaN. -/
theorem seriesMin_of_no_vals {xs : List FV} (h : xs.filter (fun v => !v.isNan) = []) :
    seriesMin xs = FV.nan := by
  rcases seriesMin_spec xs with ⟨_, h2⟩ | ⟨h1, _⟩
  · exact h2
  · rw [h] at h1
    cases h1

/-- A cell belongs to the flattened region exactly when it belongs to some
column (for a well-formed matrix whose rows all have the column count). -/
theorem mem_cell_iff_col (df : NDF) (hwf : ∀ r ∈ df.rows, r.length = df.cols.length) (x : FV) :
    x ∈ df.rows.flatten ↔ ∃ j, j < df.cols.length ∧ x ∈ colVals df j := by
  constructor
  · intro hx
    obtain ⟨r, hr, hxr⟩ := List.mem_flatten.mp hx
    obtain ⟨j, hj, he⟩ := List.mem_iff_getElem.mp hxr
    refine ⟨j, ?_, ?_⟩
    · rw [← hwf r hr]
      exact hj
    · exact List.mem_filterMap.mpr ⟨r, hr, by rw [List.get?_eq_getElem?, List.getElem?_eq_getElem hj, he]⟩
  · rintro ⟨j, hj, hx⟩
    obtain ⟨r, hr, hget⟩ := List.mem_filterMap.mp hx
    refine List.mem_flatten.mpr ⟨r, hr, ?_⟩
    rw [List.get?_eq_getElem?] at hget
    exact List.getElem?_mem hget

/-- The code's nested minimum `df.iloc[:, 1:].min().min()` (minimum of the
per-column minima) equals the one-pass minimum over all cells of the
region. -/
theorem codeMin_eq_regionMin (df : NDF) (hwf : ∀ r ∈ df.rows, r.length = df.cols.length) :
    codeMin df = regionMin df := by
  by_cases hempty : df.rows.flatten.filter (fun v => !v.isNan) = []
  · have hcells : ∀ x ∈ df.rows.flatten, x.isNan = true := by
      intro x hx
      by_contra hn
      have hmem : x ∈ df.rows.flatten.filter (fun v => !v.isNan) :=
        List.mem_filter.mpr ⟨hx, by simpa using hn⟩
      rw [hempty] at hmem
      cases hmem
    have hcolnan : ∀ j, j < df.cols.length → colMin df j = FV.nan := by
      intro j hj
      apply seriesMin_of_no_vals
      rw [List.filter_eq_nil_iff]
      intro x hx
      have hxcell : x ∈ df.rows.flatten := (mem_cell_iff_col df hwf x).mpr ⟨j, hj, hx⟩
      simpa using hcells x hxcell
    have hmins : ((List.range df.cols.length).map (colMin df)).filter (fun v => !v.isNan) = [] := by
      rw [List.filter_eq_nil_iff]
      intro x hx
      obtain ⟨j, hj, hje⟩ := List.mem_map.mp hx
      rw [← hje, hcolnan j (List.mem_range.mp hj)]
      simp [FV.isNan]
    rw [show codeMin df = seriesMin ((List.range df.cols.length).map (colMin df)) from rfl,
      show regionMin df = seriesMin df.rows.flatten from rfl,
      seriesMin_of_no_vals hmins, seriesMin_of_no_vals hempty]
  · rcases seriesMin_spec df.rows.flatten with ⟨h1, _⟩ | ⟨hmem, hlb⟩
    · exact absurd h1 hempty
    obtain ⟨hmcell, hmnan⟩ := List.mem_filter.mp hmem
    obtain ⟨jm, hjm, hmcol⟩ := (mem_cell_iff_col df hwf _).mp hmcell
    have hjmfil : (colVals df jm).filter (fun v => !v.isNan) ≠ [] := by
      intro h0
      have hmem2 : seriesMin df.rows.flatten ∈ (colVals df jm).filter (fun v => !v.isNan) :=
        List.mem_filter.mpr ⟨hmcol, hmnan⟩
      rw [h0] at hmem2
      cases hmem2
    rcases seriesMin_spec (colVals df jm) with ⟨h1, _⟩ | ⟨hc1, hc2⟩
    · exact absurd h1 hjmfil
    have hcolm_le : FV.leB (colMin df jm) (seriesMin df.rows.flatten) = true :=
      hc2 _ (List.mem_filter.mpr ⟨hmcol, hmnan⟩)
    have hcolm_nan : (colMin df jm).isNan = false := seriesMin_not_nan hjmfil
    have hjm_mem : colMin df jm ∈ (List.range df.cols.length).map (colMin df) :=
      List.mem_map.mpr ⟨jm, List.mem_range.mpr hjm, rfl⟩
    have hminsfil : ((List.range df.cols.length).map (colMin df)).filter
        (fun v => !v.isNan) ≠ [] := by
      intro h0
      have hmem2 : colMin df jm ∈ ((List.range df.cols.length).map (colMin df)).filter
          (fun v => !v.isNan) :=
        List.mem_filter.mpr ⟨hjm_mem, by simp [hcolm_nan]⟩
      rw [h0] at hmem2
      cases hmem2
    rcases seriesMin_spec ((List.range df.cols.length).map (colMin df)) with ⟨h1, _⟩ | ⟨hd1, hd2⟩
    · exact absurd h1 hminsfil
    obtain ⟨hcmem, hcnan⟩ := List.mem_filter.mp hd1
    obtain ⟨jc, hjc, hceq⟩ := List.mem_map.mp hcmem
    have hjcfil : (colVals df jc).filter (fun v => !v.isNan) ≠ [] := by
      intro h0
      rw [show colMin df jc = seriesMin (colVals df jc) from rfl, seriesMin_of_no_vals h0] at hceq
      rw [← hceq] at hcnan
      simp [FV.isNan] at hcnan
    rcases seriesMin_spec (colVals df jc) with ⟨h1, _⟩ | ⟨he1, he2⟩
    · exact absurd h1 hjcfil
    have hccell : seriesMin (colVals df jc) ∈ df.rows.flatten := by
      obtain ⟨hin, _⟩ := List.mem_filter.mp he1
      exact (mem_cell_iff_col df hwf _).mpr ⟨jc, List.mem_range.mp hjc, hin⟩
    have hcnan2 : (seriesMin (colVals df jc)).isNan = false := seriesMin_not_nan hjcfil
    have hm_le_c : FV.leB (seriesMin df.rows.flatten) (seriesMin (colVals df jc)) = true :=
      hlb _ (List.mem_filter.mpr ⟨hccell, by simp [hcnan2]⟩)
    have hc_le_colm : FV.leB (seriesMin ((List.range df.cols.length).map (colMin df)))
        (colMin df jm) = true :=
      hd2 _ (List.mem_filter.mpr ⟨hjm_mem, by simp [hcolm_nan]⟩)
    have hc_le_m : FV.leB (seriesMin ((List.range df.cols.length).map (colMin df)))
        (seriesMin df.rows.flatten) = true :=
      FV.leB_trans hc_le_colm hcolm_le
    have hm_le_c2 : FV.leB (seriesMin df.rows.flatten)
        (seriesMin ((List.range df.cols.length).map (colMin df))) = true := by
      rw [← hceq]
      exact hm_le_c
    exact FV.leB_antisymm hc_le_m hm_le_c2

/-! Median lemmas for C3: the median commutes with multiplication by a
constant (for any sign of the constant), because scaling by a non-negative
constant preserves the sorted order and scaling by a negative constant
reverses it, exchanging the two middle positions symmetrically. -/

theorem getD_eq_of_lt {α : Type} (s : List α) (n : ℕ) (d : α) (h : n < s.length) :
    s.getD n d = s[n] := by
  rw [List.getD_eq_getElem?_getD, List.getElem?_eq_getElem h]
  rfl

theorem sortQ_perm (xs : List ℚ) : (sortQ xs).Perm xs := List.perm_insertionSort _ xs

theorem sortQ_sorted (xs : List ℚ) : List.Sorted (fun a b : ℚ => a ≤ b) (sortQ xs) :=
  List.sorted_insertionSort _ xs

theorem sortQ_length (xs : List ℚ) : (sortQ xs).length = xs.length :=
  (sortQ_perm xs).length_eq

theorem sortQ_map_nonneg {k : ℚ} (hk : 0 ≤ k) (xs : List ℚ) :
    sortQ (xs.map (fun x => k * x)) = (sortQ xs).map (fun x => k * x) := by
  apply List.eq_of_perm_of_sorted (r := fun a b : ℚ => a ≤ b)
  · exact (sortQ_perm _).trans ((sortQ_perm xs).symm.map _)
  · exact sortQ_sorted _
  · exact List.Pairwise.map _ (fun a b hab => mul_le_mul_of_nonneg_left hab hk) (sortQ_sorted xs)

theorem sortQ_map_neg {k : ℚ} (hk : k < 0) (xs : List ℚ) :
    sortQ (xs.map (fun x => k * x)) = ((sortQ xs).map (fun x => k * x)).reverse := by
  apply List.eq_of_perm_of_sorted (r := fun a b : ℚ => a ≤ b)
  · exact (sortQ_perm _).trans (((sortQ_perm xs).symm.map _).trans (List.reverse_perm _).symm)
  · exact sortQ_sorted _
  · rw [List.Sorted, List.pairwise_reverse, List.pairwise_map]
    exact List.Pairwise.imp (fun hab => mul_le_mul_of_nonpos_left hab (le_of_lt hk))
      (sortQ_sorted xs)

theorem rev_map_getD (s : List ℚ) (k : ℚ) (i : ℕ) (h : i < s.length) (d : ℚ) :
    ((s.map (fun x => k * x)).reverse).getD i d = k * s.getD (s.length - 1 - i) d := by
  have h1 : i < ((s.map (fun x => k * x)).reverse).length := by simpa using h
  have h2 : s.length - 1 - i < s.length := by omega
  rw [getD_eq_of_lt _ _ _ h1, getD_eq_of_lt _ _ _ h2, List.getElem_reverse, List.getElem_map]
  simp only [List.length_map]

theorem medianQ_map_mul (k : ℚ) (xs : List ℚ) :
    medianQ (xs.map (fun x => k * x)) = (medianQ xs).map (fun m => k * m) := by
  cases hxs : xs with
  | nil => simp [medianQ]
  | cons a t =>
  rw [← hxs]
  have hne : xs.isEmpty = false := by rw [hxs]; rfl
  have hnem : (xs.map (fun x => k * x)).isEmpty = false := by rw [hxs]; rfl
  unfold medianQ
  rw [hne, hnem]
  simp only [Bool.false_eq_true, if_false, Option.map_some]
  congr 1
  have hpos : 0 < (sortQ xs).length := by
    rw [sortQ_length, hxs]
    simp
  have hlt : (sortQ xs).length / 2 < (sortQ xs).length := Nat.div_lt_self hpos (by norm_num)
  rcases le_or_lt 0 k with hk | hk
  · rw [sortQ_map_nonneg hk]
    unfold medOfSorted
    rw [List.length_map]
    by_cases hpar : (sortQ xs).length % 2 = 1
    · rw [if_pos hpar, if_pos hpar,
        getD_eq_of_lt _ _ _ (by simpa using hlt), getD_eq_of_lt _ _ _ hlt, List.getElem_map]
    · have hlt2 : (sortQ xs).length / 2 - 1 < (sortQ xs).length := by omega
      rw [if_neg hpar, if_neg hpar,
        getD_eq_of_lt _ _ _ (by simpa using hlt2), getD_eq_of_lt _ _ _ (by simpa using hlt),
        getD_eq_of_lt _ _ _ hlt2, getD_eq_of_lt _ _ _ hlt, List.getElem_map, List.getElem_map]
      ring
  · rw [sortQ_map_neg hk]
    unfold medOfSorted
    rw [List.length_reverse, List.length_map]
    by_cases hpar : (sortQ xs).length % 2 = 1
    · rw [if_pos hpar, if_pos hpar, rev_map_getD _ _ _ hlt,
        show (sortQ xs).length - 1 - (sortQ xs).length / 2 = (sortQ xs).length / 2 from by omega]
    · have hlt2 : (sortQ xs).length / 2 - 1 < (sortQ xs).length := by omega
      rw [if_neg hpar, if_neg hpar, rev_map_getD _ _ _ hlt2, rev_map_getD _ _ _ hlt,
        show (sortQ xs).length - 1 - ((sortQ xs).length / 2 - 1) = (sortQ xs).length / 2 from
          by omega,
        show (sortQ xs).length - 1 - (sortQ xs).length / 2 = (sortQ xs).length / 2 - 1 from
          by omega]
      ring

/-- On a list whose cells are NaN or finite, dropping NaNs is mapping
`FV.num` over the extracted finite values. -/
theorem filter_nonNan_eq_map {xs : List FV} (h : ∀ v ∈ xs, v = FV.nan ∨ ∃ q, v = FV.num q) :
    xs.filter (fun v => !v.isNan) = (xs.filterMap FV.toQ).map FV.num := by
  induction xs with
  | nil => rfl
  | cons a t ih =>
    have ht : ∀ v ∈ t, v = FV.nan ∨ ∃ q, v = FV.num q := fun v hv => h v (by simp [hv])
    rcases h a (by simp) with rfl | ⟨q, rfl⟩
    · simpa [List.filter_cons, List.filterMap_cons, FV.isNan, FV.toQ] using ih ht
    · simpa [List.filter_cons, List.filterMap_cons, FV.isNan, FV.toQ] using ih ht

/-- Sorting cells that are all finite is sorting their values. -/
theorem sortFV_map_num (qs : List ℚ) : sortFV (qs.map FV.num) = (sortQ qs).map FV.num := by
  apply List.eq_of_perm_of_sorted (r := FV.leR)
  · exact (List.perm_insertionSort _ _).trans ((sortQ_perm qs).symm.map _)
  · exact List.sorted_insertionSort _ _
  · exact List.Pairwise.map _ (fun a b hab => by simpa [FV.leR, FV.leB] using hab)
      (sortQ_sorted qs)

/-- On NaN-or-finite cells, the pandas median is the rational median of the
finite values (NaN when there are none). -/
theorem medianFV_no_inf {xs : List FV} (h : ∀ v ∈ xs, v = FV.nan ∨ ∃ q, v = FV.num q) :
    medianFV xs = (match medianQ (xs.filterMap FV.toQ) with
      | none => FV.nan
      | some q => FV.num q) := by
  simp only [medianFV, medianQ]
  rw [filter_nonNan_eq_map h, sortFV_map_num]
  by_cases hq : (xs.filterMap FV.toQ).isEmpty
  · have he : xs.filterMap FV.toQ = [] := by
      cases hxe : xs.filterMap FV.toQ
      · rfl
      · rw [hxe] at hq
        simp at hq
    rw [he]
    rfl
  · have hres : ((sortQ (xs.filterMap FV.toQ)).map FV.num).isEmpty = false := by
      cases hxe : (sortQ (xs.filterMap FV.toQ)).map FV.num
      · have : (xs.filterMap FV.toQ).length = 0 := by
          have h0 := congrArg List.length hxe
          simpa [sortQ_length] using h0
        cases hxe2 : xs.filterMap FV.toQ
        · rw [hxe2] at hq
          simp at hq
        · rw [hxe2] at this
          simp at this
      · rfl
    rw [Bool.not_eq_true] at hq
    rw [hres, hq]
    simp only [Bool.false_eq_true, if_false]
    have hpos : 0 < (sortQ (xs.filterMap FV.toQ)).length := by
      rw [sortQ_length]
      cases hxe2 : xs.filterMap FV.toQ
      · rw [hxe2] at hq
        simp at hq
      · simp
    have hlt : (sortQ (xs.filterMap FV.toQ)).length / 2 < (sortQ (xs.filterMap FV.toQ)).length :=
      Nat.div_lt_self hpos (by norm_num)
    rw [List.length_map]
    unfold medOfSorted
    by_cases hpar : (sortQ (xs.filterMap FV.toQ)).length % 2 = 1
    · rw [if_pos hpar, if_pos hpar, getD_eq_of_lt _ _ _ (by simpa using hlt),
        getD_eq_of_lt _ _ _ hlt, List.getElem_map]
    · have hlt2 : (sortQ (xs.filterMap FV.toQ)).length / 2 - 1
          < (sortQ (xs.filterMap FV.toQ)).length := by omega
      rw [if_neg hpar, if_neg hpar, getD_eq_of_lt _ _ _ (by simpa using hlt2),
        getD_eq_of_lt _ _ _ (by simpa using hlt), getD_eq_of_lt _ _ _ hlt2,
        getD_eq_of_lt _ _ _ hlt, List.getElem_map, List.getElem_map]
      norm_num [FV.add, FV.div]

/-- Index access through the positional cell map. -/
theorem mapIdxFrom_get? (f : ℕ → FV → FV) (l : List FV) (k j : ℕ) :
    (mapIdxFrom f k l).get? j = (l.get? j).map (f (k + j)) := by
  induction l generalizing k j with
  | nil => simp [mapIdxFrom]
  | cons a t ih =>
    cases j with
    | zero => simp [mapIdxFrom]
    | succ j2 =>
      have e : k + (j2 + 1) = (k + 1) + j2 := by omega
      simp only [mapIdxFrom, List.get?_cons_succ, e, ih (k + 1) j2]

/-- The columns of the median-normalized matrix are the cellwise
`v / median(j) * median_of_medians` image of the original columns. -/
theorem colVals_median_normalize (df : NDF) (j : ℕ) :
    colVals (median_normalize df) j
      = (colVals df j).map
          (fun v => FV.mul (FV.div v (colMedian df j)) (medianOfMedians df)) := by
  simp only [colVals, median_normalize]
  rw [List.filterMap_map, List.map_filterMap]
  congr 1
  funext r
  simp only [Function.comp]
  rw [mapIdxFrom_get?]
  simp

/-! Claims C5 and C10: the quality filter. -/

/-- C10: `remove_dup_proteinIDs` retains exactly the rows whose
`'Majority protein IDs'` field is present and does not contain `';'`; in
particular a row with a missing (NaN) identity field is dropped, because
`NaN == False` is false in pandas. -/
theorem C10_remove_dup_drops_missing_ids (df : List RawRow) (r : RawRow) :
    r ∈ remove_dup_proteinIDs df ↔
      r ∈ df ∧ ∃ s, r.majorityIDs = some s ∧ s.contains ';' = false := by
  unfold remove_dup_proteinIDs
  rw [List.mem_filter]
  constructor
  · rintro ⟨hr, hb⟩
    refine ⟨hr, ?_⟩
    cases h : r.majorityIDs with
    | none => simp [h] at hb
    | some s =>
      refine ⟨s, rfl, ?_⟩
      simpa [h] using hb
  · rintro ⟨hr, s, hs, hc⟩
    exact ⟨hr, by simp [hs, hc]⟩

/-- C5 counterexample: the claim's retention predicate keeps a row with a
missing identity field (no flag is `'+'` and the field does not contain
`';'`), but the composed quality filter drops it. -/
theorem C5_counterexample :
    qualityClaimRetained rowNoId = true ∧
    remove_dup_proteinIDs (clean_weakly_identified [rowNoId]) = [] := by
  constructor <;> rfl

/-- C5 (amended): the quality filter retains exactly the rows whose three
flag cells differ from `'+'` (a missing flag cell is kept) AND whose
identity field is present and free of `';'`; rows with a missing identity
field are dropped along with the separator-containing ones. -/
theorem C5_quality_filter (df : List RawRow) :
    remove_dup_proteinIDs (clean_weakly_identified df) = df.filter qualityRetained := by
  unfold remove_dup_proteinIDs clean_weakly_identified
  rw [List.filter_filter]
  apply List.filter_congr
  intro r _
  cases h : r.majorityIDs <;>
    simp [qualityRetained, h, Bool.and_comm, Bool.and_left_comm, Bool.and_assoc]

/-! Claim C9: mutation asymmetry between the Imputer and the Normalizer. -/

/-- C9: in the call model, `impute_missing` leaves the caller's matrix
unchanged and returns the new matrix, while `log2_normalize` and
`median_normalize` leave their result in the caller's matrix and return
`None`; the returned imputed matrix really is a different matrix on a
concrete input with a missing cell. -/
theorem C9_mutation_asymmetry (lg : ℚ → ℚ) (df : NDF) :
    (imputeCall df).1 = df ∧ (imputeCall df).2 = some (impute_missing df) ∧
    (log2Call lg df).2 = none ∧ (log2Call lg df).1 = log2_normalize lg df ∧
    (medianCall df).2 = none ∧ (medianCall df).1 = median_normalize df ∧
    (imputeCall ⟨["s"], [[FV.nan], [FV.num 2]]⟩).2 ≠
      some (imputeCall ⟨["s"], [[FV.nan], [FV.num 2]]⟩).1 := by
  refine ⟨rfl, rfl, rfl, rfl, rfl, rfl, ?_⟩
  norm_num [imputeCall, impute_missing, codeMin, colMin, colVals, seriesMin,
    List.filterMap, List.filter, FV.isNan, FV.min2, FV.leB, FV.div, NDF.mk.injEq]
  simp

/-! Claim C6: the log transform. -/

/-- C6: after `log2_normalize`, a positive cell holds its log2, a zero cell
is the missing sentinel (the `-inf` produced by `log2(0)` is replaced by
NaN), negative and infinite cells and already-missing cells are the missing
sentinel; no infinity survives and the transform is total (never raises). -/
theorem C6_log2 (lg : ℚ → ℚ) (df : NDF) (i j : ℕ) (r : List FV) (v : FV)
    (hr : df.rows[i]? = some r) (hv : r[j]? = some v) :
    ∃ r', (log2_normalize lg df).rows[i]? = some r' ∧
      r'[j]? = some (match v with
        | FV.num q => if 0 < q then FV.num (lg q) else FV.nan
        | _ => FV.nan) := by
  refine ⟨r.map (fun v => replaceInfNan (np_log2 lg v)), ?_, ?_⟩
  · simp [log2_normalize, hr]
  · simp only [List.getElem?_map, hv, Option.map_some]
    cases v with
    | nan => rfl
    | pinf => rfl
    | ninf => rfl
    | num q =>
      by_cases h0 : 0 < q
      · simp [np_log2, replaceInfNan, h0]
      · rcases eq_or_lt_of_le (not_lt.mp h0) with h | h
        · simp [np_log2, replaceInfNan, h0, ← h]
        · simp [np_log2, replaceInfNan, h0, ne_of_lt h, not_lt.mp h0]

/-! Claims C1 and C8: the detection filter. -/

/-- C1 (code bug, evaluated at the failing input): the claim's own
retention predicate (each group compared against half of THAT group's
column count) retains the row, but `filter_low_observed` drops it, because
the loop variable `threshold` leaks and every group's count is compared
against the LAST group's threshold (here `4/2 = 2` from `Brain`, instead of
`2/2 = 1` for `Liver`).  This also contradicts the function's own
docstring ("proteins not observed in at least 50% of samples in any group
have been removed"). -/
theorem C1_threshold_leak :
    detectionPassSpec colsC1 ["Liver", "Brain"] rowC1 = true ∧
    filter_low_observed ⟨colsC1, [rowC1]⟩ ["Liver", "Brain"] = some ⟨colsC1, []⟩ := by
  have hgL : (groupCols colsC1 "Liver").length = 2 := rfl
  have hgB : (groupCols colsC1 "Brain").length = 4 := rfl
  have hcL : nonzeroCount colsC1 rowC1 "Liver" = 1 := rfl
  have hcB : nonzeroCount colsC1 rowC1 "Brain" = 0 := rfl
  constructor
  · simp only [detectionPassSpec, List.any_cons, List.any_nil, hgL, hgB, hcL, hcB,
      Bool.or_eq_true, decide_eq_true_eq]
    norm_num
  · have hlast : ∀ h0, (["Liver", "Brain"].getLast h0) = "Brain" := fun _ => rfl
    simp only [filter_low_observed, List.getLast?, List.filter, List.any_cons, List.any_nil,
      hcL, hcB, hlast]
    rw [hgB]
    norm_num

/-- C8 counterexample: on a concrete input where the group `Kidney` matches
zero columns, `filter_low_observed` returns an ordinary result (it is
`some`, not the error outcome), and on a concrete table where the feature
prefix `LFQ` selects zero sample columns, `slice_by_column` silently
returns the identity-only slice.  No configuration error is surfaced. -/
theorem C8_counterexample :
    filter_low_observed ⟨["iBAQ 01_Liver"], [[FV.num 0]]⟩ ["Kidney", "Liver"]
      = some ⟨["iBAQ 01_Liver"], []⟩ ∧
    slice_by_column ["Majority protein IDs", "iBAQ 01_Liver"] "protein" "LFQ"
      = ["Majority protein IDs"] := by
  constructor
  · simp only [filter_low_observed, List.getLast?, List.filter, List.any_cons, List.any_nil]
    norm_num [show nonzeroCount ["iBAQ 01_Liver"] [FV.num 0] "Kidney" = 0 from rfl,
      show nonzeroCount ["iBAQ 01_Liver"] [FV.num 0] "Liver" = 0 from rfl,
      show (groupCols ["iBAQ 01_Liver"] "Liver").length = 1 from rfl]
  · rfl

/-- C8 (amended): the code never surfaces a configuration error for an
empty group or an empty slice; `filter_low_observed` returns a result for
EVERY matrix and every non-empty group list (the only failure in the
function is the `NameError` on an empty group list), regardless of whether
some group matches zero columns. -/
theorem C8_no_config_error (df : NDF) (groups : List String) (h : groups ≠ []) :
    (filter_low_observed df groups).isSome = true := by
  unfold filter_low_observed
  cases hg : groups.getLast? with
  | none => exact absurd (List.getLast?_eq_none_iff.mp hg) h
  | some g => rfl

/-- Witness for C8 on a concrete input with a zero-match group `Kidney`. -/
theorem C8_no_config_error_witness :
    ["Kidney", "Liver"] ≠ ([] : List String) ∧
    (filter_low_observed ⟨["iBAQ 02_Liver"], [[FV.num 5]]⟩ ["Kidney", "Liver"]).isSome = true :=
  ⟨by simp, C8_no_config_error ⟨["iBAQ 02_Liver"], [[FV.num 5]]⟩ ["Kidney", "Liver"] (by simp)⟩

/-- Witness for C6 at a concrete matrix: the cell `4` becomes `lg 4`. -/
theorem C6_log2_witness :
    ∃ r', (log2_normalize (fun _ => 0) ⟨["s"], [[FV.num 4]]⟩).rows[0]? = some r' ∧
      r'[0]? = some (FV.num 0) := by
  have h := C6_log2 (fun _ => 0) ⟨["s"], [[FV.num 4]]⟩ 0 0 [FV.num 4] (FV.num 4) rfl rfl
  norm_num at h
  exact h

/-! Claim C4: the imputer. -/

/-- C4: for a well-formed matrix with at least one non-missing value,
`impute_missing` replaces every missing cell with exactly half the minimum
non-missing value over the whole sample-column region and leaves every
non-missing cell unchanged (the identity column is outside the numeric
region and plays no part in the minimum). -/
theorem C4_impute (df : NDF) (i j : ℕ) (r : List FV) (v : FV)
    (hwf : ∀ r0 ∈ df.rows, r0.length = df.cols.length)
    (hr : df.rows[i]? = some r) (hv : r[j]? = some v)
    (hmin : regionMin df ≠ FV.nan) :
    ∃ r', (impute_missing df).rows[i]? = some r' ∧
      r'[j]? = some (if v.isNan then FV.div (regionMin df) (FV.num 2) else v) := by
  refine ⟨r.map (fun v => if v.isNan then FV.div (codeMin df) (FV.num 2) else v), ?_, ?_⟩
  · simp [impute_missing, hr]
  · simp only [List.getElem?_map, hv, Option.map_some]
    rw [codeMin_eq_regionMin df hwf]
    rfl

/-- Witness for C4 at a concrete matrix: the region minimum is `2`, and the
NaN cell at position `(0, 0)` becomes `2 / 2 = 1` while the cell `4` at
position `(0, 1)` is unchanged. -/
theorem C4_impute_witness :
    ∃ r', (impute_missing ⟨["a", "b"], [[FV.nan, FV.num 4], [FV.num 2, FV.nan]]⟩).rows[0]?
        = some r' ∧
      r'[0]? = some (FV.num 1) ∧ r'[1]? = some (FV.num 4) := by
  have h0 := C4_impute ⟨["a", "b"], [[FV.nan, FV.num 4], [FV.num 2, FV.nan]]⟩ 0 0
    [FV.nan, FV.num 4] FV.nan (by decide) rfl rfl (by decide)
  have h1 := C4_impute ⟨["a", "b"], [[FV.nan, FV.num 4], [FV.num 2, FV.nan]]⟩ 0 1
    [FV.nan, FV.num 4] (FV.num 4) (by decide) rfl rfl (by decide)
  have hreg : regionMin ⟨["a", "b"], [[FV.nan, FV.num 4], [FV.num 2, FV.nan]]⟩ = FV.num 2 := by
    rfl
  rw [hreg] at h0
  obtain ⟨r', hr', hc0⟩ := h0
  obtain ⟨r2, hr2, hc1⟩ := h1
  refine ⟨r', hr', ?_, ?_⟩
  · rw [hc0]
    norm_num [FV.isNan, FV.div]
  · rw [hr'] at hr2
    cases hr2
    rw [hc1]
    norm_num [FV.isNan]

/-! Claims C2 and C7: the significance filter. -/

/-- C2 counterexample: for the input `dfC2` (six values, group mapping of
two groups of three) and threshold `0.05`, the claim's retention rule
(one-way ANOVA over the blocks of the ACTUAL mapping) retains the row
(`p = 0` from separated constant groups), but `filter_proteins_by_anova`
drops it: the code slices the fixed ranges `[:6], [6:12], ...,` so the
second block is empty and the p-value is NaN.  The partition therefore does
not follow the supplied mapping. -/
theorem C2_counterexample :
    filter_proteins_by_anova contDec0 dfC2 (1/20) = [] ∧
    anovaFilterSpec contDec0 [3, 3] dfC2 (1/20) = dfC2 := by
  have ho : offsetQ [[(1:ℚ), 1, 1], [2, 2, 2]] = 3/2 := by
    norm_num [offsetQ, List.flatten]
  have hst : sstotQ [[(1:ℚ), 1, 1], [2, 2, 2]] = 3/2 := by
    norm_num [sstotQ, ho, List.flatten, sqQ]
  have hsb : ssbnQ [[(1:ℚ), 1, 1], [2, 2, 2]] = 3/2 := by
    norm_num [ssbnQ, ho, List.flatten, sqQ]
  have hsw : sswnQ [[(1:ℚ), 1, 1], [2, 2, 2]] = 0 := by
    norm_num [sswnQ, hst, hsb]
  have hfq : f_onewayQ [[(1:ℚ), 1, 1], [2, 2, 2]] = PVal.zero := by
    unfold f_onewayQ
    norm_num [hsw, hsb, List.flatten]
  have hf : f_oneway [[FV.num 1, FV.num 1, FV.num 1], [FV.num 2, FV.num 2, FV.num 2]]
      = PVal.zero := by
    have e4 : f_oneway [[FV.num 1, FV.num 1, FV.num 1], [FV.num 2, FV.num 2, FV.num 2]]
        = f_onewayQ [[(1:ℚ), 1, 1], [2, 2, 2]] := rfl
    rw [e4, hfq]
  constructor
  · norm_num [filter_proteins_by_anova, anovaPass, dfC2, hardBlocks, f_oneway, f_onewayQ,
      PVal.le, FV.toQ, List.filter]
  · simp only [anovaFilterSpec, dfC2, List.filter]
    rw [show specBlocks [3, 3] [FV.num 1, FV.num 1, FV.num 1, FV.num 2, FV.num 2, FV.num 2]
        = [[FV.num 1, FV.num 1, FV.num 1], [FV.num 2, FV.num 2, FV.num 2]] from rfl, hf]
    norm_num [PVal.le]

/-- C2 (amended): `filter_proteins_by_anova` ignores the group mapping and
always partitions each row into the five fixed six-column blocks
`[:6], [6:12], [12:18], [18:24], [24:30]`; a row is retained exactly when
some row of the input carrying the same protein id passes the test
`p <= pval` over those fixed blocks (retention is by id membership in the
pass list, so duplicate ids stand or fall together). -/
theorem C2_fixed_blocks_retention (contDec : ℕ → ℕ → ℚ → ℚ → Bool)
    (df : List (String × List FV)) (pval : ℚ) (r : String × List FV) :
    r ∈ filter_proteins_by_anova contDec df pval ↔
      r ∈ df ∧ ∃ r', r' ∈ df ∧ r'.1 = r.1 ∧ anovaPass contDec pval r' = true := by
  unfold filter_proteins_by_anova
  rw [List.mem_filter]
  simp only [decide_eq_true_eq, List.mem_map, List.mem_filter]
  constructor
  · rintro ⟨hr, r', ⟨hd, hp⟩, he⟩
    exact ⟨hr, r', hd, he, hp⟩
  · rintro ⟨hr, r', hd, he, hp⟩
    exact ⟨hr, r', ⟨hd, hp⟩, he⟩

/-- C7 counterexample: the row `rowC7` has identical values within every
group (zero within-group variance) yet IS retained at threshold
`0.05 < 1`: its group means differ, so `F = +inf` and `p = 0`, which
passes.  The claim's "treated as does-not-pass" policy only holds when the
row is constant across ALL groups. -/
theorem C7_counterexample :
    (1:ℚ)/20 < 1 ∧ filter_proteins_by_anova contDec0 dfC7 (1/20) = dfC7 := by
  have ho : offsetQ [[(1:ℚ), 1, 1, 1, 1, 1], [2, 2, 2, 2, 2, 2], [3, 3, 3, 3, 3, 3], [4, 4, 4, 4, 4, 4], [5, 5, 5, 5, 5, 5]] = 3 := by
    norm_num [offsetQ, List.flatten]
  have hst : sstotQ [[(1:ℚ), 1, 1, 1, 1, 1], [2, 2, 2, 2, 2, 2], [3, 3, 3, 3, 3, 3], [4, 4, 4, 4, 4, 4], [5, 5, 5, 5, 5, 5]] = 60 := by
    norm_num [sstotQ, ho, List.flatten, sqQ]
  have hsb : ssbnQ [[(1:ℚ), 1, 1, 1, 1, 1], [2, 2, 2, 2, 2, 2], [3, 3, 3, 3, 3, 3], [4, 4, 4, 4, 4, 4], [5, 5, 5, 5, 5, 5]] = 60 := by
    norm_num [ssbnQ, ho, List.flatten, sqQ]
  have hsw : sswnQ [[(1:ℚ), 1, 1, 1, 1, 1], [2, 2, 2, 2, 2, 2], [3, 3, 3, 3, 3, 3], [4, 4, 4, 4, 4, 4], [5, 5, 5, 5, 5, 5]] = 0 := by
    norm_num [sswnQ, hst, hsb]
  have hfq : f_onewayQ [[(1:ℚ), 1, 1, 1, 1, 1], [2, 2, 2, 2, 2, 2], [3, 3, 3, 3, 3, 3], [4, 4, 4, 4, 4, 4], [5, 5, 5, 5, 5, 5]] = PVal.zero := by
    unfold f_onewayQ
    norm_num [hsw, hsb, List.flatten]
  have hf : f_oneway (hardBlocks rowC7) = PVal.zero := by
    have e4 : f_oneway (hardBlocks rowC7) = f_onewayQ [[(1:ℚ), 1, 1, 1, 1, 1], [2, 2, 2, 2, 2, 2], [3, 3, 3, 3, 3, 3], [4, 4, 4, 4, 4, 4], [5, 5, 5, 5, 5, 5]] := rfl
    rw [e4, hfq]
  have hpassb : anovaPass contDec0 (1/20) ("P1", rowC7) = true := by
    unfold anovaPass
    rw [show ("P1", rowC7).2 = rowC7 from rfl, hf]
    norm_num [PVal.le]
  constructor
  · norm_num
  · simp only [filter_proteins_by_anova, dfC7, List.filter_cons, List.filter_nil, hpassb,
      if_true, List.map_cons, List.map_nil]
    norm_num

/-- C7 (amended): a row whose values are identical across ALL groups (a
fully constant row, the case in which the F statistic is genuinely
undefined) never passes the test: its p-value is NaN and `NaN <= pval` is
false at every threshold, so when no other row of the input shares its id
the row is excluded from the output. -/
theorem C7_constant_row_excluded (contDec : ℕ → ℕ → ℚ → ℚ → Bool)
    (df : List (String × List FV)) (pval : ℚ) (pid : String) (vals : List FV) (c : ℚ)
    (hconst : ∀ v ∈ vals, v = FV.num c)
    (huniq : ∀ r ∈ df, r.1 = pid → r.2 = vals) :
    (pid, vals) ∉ filter_proteins_by_anova contDec df pval := by
  intro hmem
  unfold filter_proteins_by_anova at hmem
  rw [List.mem_filter] at hmem
  obtain ⟨hin, hpass⟩ := hmem
  rw [decide_eq_true_eq, List.mem_map] at hpass
  obtain ⟨r', hr', hfst⟩ := hpass
  rw [List.mem_filter] at hr'
  obtain ⟨hrdf, hrpass⟩ := hr'
  have h2 : r'.2 = vals := huniq r' hrdf hfst
  unfold anovaPass at hrpass
  rw [h2, f_oneway_const (hardBlocks_const hconst)] at hrpass
  simp [PVal.le] at hrpass

/-- Witness for C7 at a fully constant concrete row. -/
theorem C7_constant_row_excluded_witness :
    ("P", List.replicate 30 (FV.num 3)) ∉
      filter_proteins_by_anova contDec0 [("P", List.replicate 30 (FV.num 3))] (1/2) := by
  apply C7_constant_row_excluded contDec0 _ _ "P" _ 3
  · intro v hv
    exact List.eq_of_mem_replicate hv
  · intro r hr h1
    rw [List.mem_singleton] at hr
    rw [hr]

/-- Extracting finite values through the cellwise `v / m * M` map. -/
theorem filterMap_map_cell (m M : ℚ) (hm : m ≠ 0) (xs : List FV)
    (h : ∀ v ∈ xs, v = FV.nan ∨ ∃ q, v = FV.num q) :
    (xs.map (fun v => FV.mul (FV.div v (FV.num m)) (FV.num M))).filterMap FV.toQ
      = (xs.filterMap FV.toQ).map (fun q => q / m * M) := by
  induction xs with
  | nil => rfl
  | cons a t ih =>
    have ht : ∀ v ∈ t, v = FV.nan ∨ ∃ q, v = FV.num q := fun v hv => h v (by simp [hv])
    rcases h a (by simp) with rfl | ⟨q, rfl⟩
    · simpa [List.filterMap_cons, FV.toQ, FV.div, FV.mul] using ih ht
    · simpa [List.filterMap_cons, FV.toQ, FV.div, FV.mul, hm] using ih ht

/-! Claim C3: median normalization. -/

/-- C3 counterexample: on a matrix whose single sample column is the single
value `0`, the column median is `0`, the cell becomes `0 / 0 * M = NaN`,
and the post-transform column median is NaN — not the pre-transform
median-of-medians `0`.  The claimed round-trip fails for a column with a
zero median. -/
theorem C3_counterexample :
    colMedian (median_normalize ⟨["s"], [[FV.num 0]]⟩) 0
      ≠ medianOfMedians ⟨["s"], [[FV.num 0]]⟩ := by
  norm_num [median_normalize, colMedian, colVals, medianOfMedians, colMedians, medianFV,
    sortFV, List.insertionSort, FV.leR, FV.leB, FV.isNan, FV.add, FV.div, FV.mul,
    mapIdxFrom, List.filterMap, List.filter, List.range]
  exact fun h0 => FV.noConfusion h0

/-- C3 (amended): provided every cell is missing or finite and every sample
column has a non-missing, NONZERO median, `median_normalize` keeps missing
cells missing and, afterwards, the median of each sample column's
non-missing values equals the pre-transform median-of-medians exactly
(exact rational arithmetic; the claim fails when some column median is
zero, see the counterexample). -/
theorem C3_median_roundtrip (df : NDF)
    (hcell : ∀ r ∈ df.rows, ∀ v ∈ r, v = FV.nan ∨ ∃ q, v = FV.num q)
    (hmed : ∀ j, j < df.cols.length → ∃ m : ℚ, m ≠ 0 ∧ colMedian df j = FV.num m) :
    (∀ (i j : ℕ) (r : List FV) (v : FV), df.rows[i]? = some r → r[j]? = some v → v = FV.nan →
      ∃ r', (median_normalize df).rows[i]? = some r' ∧ r'[j]? = some FV.nan) ∧
    (∀ j, j < df.cols.length → colMedian (median_normalize df) j = medianOfMedians df) := by
  constructor
  · intro i j r v hr hv hnan
    refine ⟨mapIdxFrom
      (fun j0 v0 => FV.mul (FV.div v0 (colMedian df j0)) (medianOfMedians df)) 0 r, ?_, ?_⟩
    · simp only [median_normalize, List.getElem?_map, hr]
      rfl
    · rw [show (mapIdxFrom
          (fun j0 v0 => FV.mul (FV.div v0 (colMedian df j0)) (medianOfMedians df)) 0 r)[j]?
          = (mapIdxFrom
          (fun j0 v0 => FV.mul (FV.div v0 (colMedian df j0)) (medianOfMedians df)) 0 r).get? j
          from (List.get?_eq_getElem? _ _).symm, mapIdxFrom_get?, List.get?_eq_getElem?, hv, hnan]
      simp [FV.div, FV.mul]
  · intro j hj
    obtain ⟨m, hm0, hm⟩ := hmed j hj
    have hcv : ∀ v ∈ colVals df j, v = FV.nan ∨ ∃ q, v = FV.num q := by
      intro v hv
      obtain ⟨r, hr, hget⟩ := List.mem_filterMap.mp hv
      rw [List.get?_eq_getElem?] at hget
      exact hcell r hr v (List.getElem?_mem hget)
    have hred := medianFV_no_inf hcv
    have hm2 : medianFV (colVals df j) = FV.num m := hm
    rw [hred] at hm2
    have hq : medianQ ((colVals df j).filterMap FV.toQ) = some m := by
      cases hqq : medianQ ((colVals df j).filterMap FV.toQ) with
      | none =>
        rw [hqq] at hm2
        simp at hm2
      | some q =>
        rw [hqq] at hm2
        simp only [FV.num.injEq] at hm2
        rw [hm2]
    have hcm : ∀ v ∈ colMedians df, v = FV.nan ∨ ∃ q, v = FV.num q := by
      intro v hv
      obtain ⟨j2, hj2, hje⟩ := List.mem_map.mp hv
      obtain ⟨m2, _, hm2b⟩ := hmed j2 (List.mem_range.mp hj2)
      exact Or.inr ⟨m2, by rw [← hje, hm2b]⟩
    have hMred := medianFV_no_inf hcm
    have hM : ∃ M : ℚ, medianOfMedians df = FV.num M := by
      cases hqq : medianQ ((colMedians df).filterMap FV.toQ) with
      | none =>
        exfalso
        have hmem : FV.num m ∈ colMedians df := by
          rw [← hm]
          exact List.mem_map.mpr ⟨j, List.mem_range.mpr hj, rfl⟩
        have hmm : m ∈ (colMedians df).filterMap FV.toQ :=
          List.mem_filterMap.mpr ⟨_, hmem, rfl⟩
        rw [medianQ] at hqq
        by_cases he : ((colMedians df).filterMap FV.toQ).isEmpty
        · cases hee : (colMedians df).filterMap FV.toQ
          · rw [hee] at hmm
            cases hmm
          · rw [hee] at he
            simp at he
        · rw [if_neg (by simp_all)] at hqq
          cases hqq
      | some M =>
        refine ⟨M, ?_⟩
        rw [show medianOfMedians df = medianFV (colMedians df) from rfl, hMred, hqq]
    obtain ⟨M, hMe⟩ := hM
    rw [show colMedian (median_normalize df) j = medianFV (colVals (median_normalize df) j)
        from rfl, colVals_median_normalize, hm, hMe]
    have hcv2 : ∀ v ∈ (colVals df j).map (fun v => FV.mul (FV.div v (FV.num m)) (FV.num M)),
        v = FV.nan ∨ ∃ q, v = FV.num q := by
      intro v hv
      obtain ⟨w, hw, hwe⟩ := List.mem_map.mp hv
      rcases hcv w hw with rfl | ⟨q, rfl⟩
      · refine Or.inl ?_
        rw [← hwe]
        simp [FV.div, FV.mul]
      · refine Or.inr ⟨q / m * M, ?_⟩
        rw [← hwe]
        simp [FV.div, FV.mul, hm0]
    rw [medianFV_no_inf hcv2, filterMap_map_cell m M hm0 _ hcv]
    have hfun : ((colVals df j).filterMap FV.toQ).map (fun q => q / m * M)
        = ((colVals df j).filterMap FV.toQ).map (fun q => (M / m) * q) := by
      apply List.map_congr_left
      intro q _
      field_simp
      ring
    rw [hfun, medianQ_map_mul (M / m), hq]
    show FV.num (M / m * m) = FV.num M
    rw [div_mul_cancel₀ M hm0]

/-- Witness for C3 at a concrete matrix: the column medians are `2` and
`4`, the median-of-medians is `3`, and after normalization the median of
column `0` equals `3`; the missing cell of a second matrix stays missing. -/
theorem C3_median_roundtrip_witness :
    colMedian (median_normalize ⟨["a", "b"], [[FV.num 1, FV.num 2], [FV.num 3, FV.num 6]]⟩) 0
      = medianOfMedians ⟨["a", "b"], [[FV.num 1, FV.num 2], [FV.num 3, FV.num 6]]⟩ := by
  have h := (C3_median_roundtrip ⟨["a", "b"], [[FV.num 1, FV.num 2], [FV.num 3, FV.num 6]]⟩
    ?_ ?_).2 0 (by norm_num)
  · exact h
  · intro r hr v hv
    simp only [List.mem_cons, List.not_mem_nil, or_false] at hr
    rcases hr with rfl | rfl <;>
      (simp only [List.mem_cons, List.not_mem_nil, or_false] at hv
       rcases hv with rfl | rfl <;> exact Or.inr ⟨_, rfl⟩)
  · intro j hj
    have hj2 : j < 2 := by simpa using hj
    interval_cases j
    · refine ⟨2, by norm_num, ?_⟩
      norm_num [colMedian, colVals, medianFV, sortFV, List.insertionSort, List.orderedInsert,
        FV.leR, FV.leB, FV.isNan, FV.add, FV.div, List.filterMap, List.filter]
    · refine ⟨4, by norm_num, ?_⟩
      norm_num [colMedian, colVals, medianFV, sortFV, List.insertionSort, List.orderedInsert,
        FV.leR, FV.leB, FV.isNan, FV.add, FV.div, List.filterMap, List.filter]
